import Mathlib

/-!
# Verification of the duplicate-file scanner (`findDuplicatePhotos.py`)

Shallow embedding of the duplicate-detection pipeline:
`calculate_file_hash`, `find_duplicate_files`, `format_size` and `main`.

The filesystem visible to one scan is embedded as the list of files that
`os.walk` yields, in discovery order.  Each file carries the result of the
two fallible operations the script performs on it: the `os.path.getsize`
metadata query (`statSize`, `none` when the query raises `OSError`) and the
full byte content delivered by `open` + `read` (`content`, `none` when
opening or reading raises `IOError`/`OSError`).
-/

/-- One file as seen by the directory walk.  `statSize`/`content` are `none`
exactly when the corresponding OS call raises. -/
structure FSFile where
  path : String
  statSize : Option Nat
  content : Option (List Nat)
deriving DecidableEq, Repr

/-- Result of `os.path.getsize(p)`: the walk yields each real path once, so
the first entry with a matching path is the file. -/
def statOf (fs : List FSFile) (p : String) : Option Nat :=
  (fs.find? (fun f => f.path == p)).bind (fun f => f.statSize)

/-- Result of `open(p, 'rb')` followed by reading the whole stream
(`none` models an `IOError`/`OSError` anywhere during open or read). -/
def readFile (fs : List FSFile) (p : String) : Option (List Nat) :=
  (fs.find? (fun f => f.path == p)).bind (fun f => f.content)

/-! ## Hex rendering and an ideal digest (model of `hashlib`) -/

/-- One lowercase hexadecimal digit. -/
def hexChar : Nat → Char
  | 0 => '0' | 1 => '1' | 2 => '2' | 3 => '3' | 4 => '4'
  | 5 => '5' | 6 => '6' | 7 => '7' | 8 => '8' | 9 => '9'
  | 10 => 'a' | 11 => 'b' | 12 => 'c' | 13 => 'd' | 14 => 'e' | 15 => 'f'
  | _ => 'x'

/-- Inverse of `hexChar` on hex digits. -/
def hexVal : Char → Nat
  | '0' => 0 | '1' => 1 | '2' => 2 | '3' => 3 | '4' => 4
  | '5' => 5 | '6' => 6 | '7' => 7 | '8' => 8 | '9' => 9
  | 'a' => 10 | 'b' => 11 | 'c' => 12 | 'd' => 13 | 'e' => 14 | 'f' => 15
  | _ => 16

/-- Two lowercase hex digits of one byte. -/
def hexPair (b : Nat) : List Char :=
  [hexChar (b / 16), hexChar (b % 16)]

/-- Decode a hex string two characters at a time (left inverse of byte-wise
`hexPair` rendering; used to prove the digest below injective). -/
def unhexBytes : List Char → List Nat
  | c1 :: c2 :: rest => (16 * hexVal c1 + hexVal c2) :: unhexBytes rest
  | _ => []

/-- Lowercase hexadecimal alphabet membership: a decimal digit or one of
the letters `a`–`f` (codepoints 48–57 and 97–102). -/
def isLowerHexDigit (c : Char) : Bool :=
  (48 ≤ c.toNat && c.toNat ≤ 57) || (97 ≤ c.toNat && c.toNat ≤ 102)

/-- Distinct one-byte tag per supported algorithm, so digests of different
algorithms differ. -/
def algTag : String → List Nat
  | "md5" => [0]
  | "sha1" => [1]
  | "sha256" => [2]
  | _ => [3]

/-- Modelled from the spec: the concrete digests (`hashlib.md5/sha1/sha256`)
are external library code not present in the repository.  The spec's
glossary stipulates that "equal fingerprints (under the same algorithm) are
treated as equal content", so the external hasher is modelled as an ideal
(injective) digest of the byte stream, rendered — as the spec requires — as
a lowercase hexadecimal string.  (The fixed 16/20/32-byte output width of
the real digests is not modelled; an ideal injective digest cannot have a
fixed width.) -/
def digestBytes (algorithm : String) (data : List Nat) : String :=
  String.mk ((algTag algorithm ++ data).flatMap hexPair)

/-- A `hashlib` hasher object: the algorithm it was constructed for and the
byte stream fed to it so far via `update`. -/
structure Hasher where
  algorithm : String
  fed : List Nat
deriving DecidableEq, Repr

/-- `hasher.update(buffer)` appends the buffer to the digested stream. -/
def Hasher.update (h : Hasher) (buffer : List Nat) : Hasher :=
  { h with fed := h.fed ++ buffer }

/-- `hasher.hexdigest()`: digest of everything fed so far. -/
def Hasher.hexdigest (h : Hasher) : String :=
  digestBytes h.algorithm h.fed

/-- Lines 11–18 of `findDuplicatePhotos.py`: construct the hasher for a
selector, or `none` for the `ValueError` branch. -/
def mkHasher (algorithm : String) : Option Hasher :=
  if algorithm = "md5" then some ⟨"md5", []⟩
  else if algorithm = "sha1" then some ⟨"sha1", []⟩
  else if algorithm = "sha256" then some ⟨"sha256", []⟩
  else none

/-- One iteration budget of the read loop below.  The `fuel` argument is
only a structural termination bound: `remaining.length` iterations always
suffice, because every executed iteration consumes at least one byte (and a
zero read exits the loop before consuming fuel beyond the first check). -/
def readLoopAux : Nat → Hasher → List Nat → Nat → Hasher
  | 0, h, _, _ => h
  | fuel + 1, h, remaining, bufferSize =>
    if (remaining.take bufferSize).length = 0 then h
    else readLoopAux fuel (h.update (remaining.take bufferSize))
      (remaining.drop bufferSize) bufferSize

/-- Lines 20–24: `buffer = file.read(buffer_size); while len(buffer) > 0:
hasher.update(buffer); buffer = file.read(buffer_size)`.  `remaining` is the
unread tail of the stream; `read` returns its first `bufferSize` bytes. -/
def readLoop (h : Hasher) (remaining : List Nat) (bufferSize : Nat) : Hasher :=
  readLoopAux remaining.length h remaining bufferSize

/-- Errors `calculate_file_hash` can raise: `ValueError` (unsupported
algorithm, line 18) or `IOError`/`OSError` from the file read. -/
inductive HashError where
  | valueError (msg : String)
  | ioError
deriving DecidableEq, Repr

/-- Lines 9–26: `calculate_file_hash(filepath, algorithm, buffer_size)`. -/
def calculate_file_hash (fs : List FSFile) (filepath : String)
    (algorithm : String) (buffer_size : Nat) : Except HashError String :=
  match mkHasher algorithm with
  | none => .error (.valueError ("Unsupported hash algorithm: " ++ algorithm))
  | some hasher =>
    match readFile fs filepath with
    | none => .error .ioError
    | some content => .ok (Hasher.hexdigest (readLoop hasher content buffer_size))

/-! ## Insertion-ordered multimaps (model of `defaultdict(list)`) -/

/-- `m[k].append(v)` on a `defaultdict(list)`: the first entry with key `k`
gets `v` appended; a fresh key goes to the end (dict insertion order). -/
def insertMulti {α β : Type} [DecidableEq α]
    (m : List (α × List β)) (k : α) (v : β) : List (α × List β) :=
  match m with
  | [] => [(k, [v])]
  | (k', vs) :: rest =>
    if k' = k then (k', vs ++ [v]) :: rest else (k', vs) :: insertMulti rest k v

/-- `m[k]` (empty for an absent key). -/
def lookupMulti {α β : Type} [DecidableEq α]
    (m : List (α × List β)) (k : α) : List β :=
  match m with
  | [] => []
  | (k', vs) :: rest => if k' = k then vs else lookupMulti rest k

/-- The key sequence of the dict. -/
def keysOf {α β : Type} (m : List (α × List β)) : List α :=
  m.map (fun pr => pr.1)

/-- Fill a multimap from a list of key/value pairs in order. -/
def buildFrom {α β : Type} [DecidableEq α]
    (m0 : List (α × List β)) (ps : List (α × β)) : List (α × List β) :=
  ps.foldl (fun m pr => insertMulti m pr.1 pr.2) m0

/-! ## `find_duplicate_files` (lines 28–88) -/

/-- Python's `str.lower()`: character-wise lowering (ASCII case folding is
the relevant fragment for extension strings). -/
def lowerStr (s : String) : String :=
  String.mk (s.data.map Char.toLower)

/-- Python's `str.endswith(suffix)`: the string's trailing characters equal
the suffix — a plain suffix match, with no extension-boundary logic. -/
def endsWithStr (s suffix : String) : Bool :=
  suffix.data.isSuffixOf s.data

/-- Line 47: `exclude_extensions and any(filepath.lower().endswith(ext.lower())
for ext in exclude_extensions)`.  `none` is Python's `None` (falsy); so is an
empty list, on which `any` is false as well. -/
def isExcluded (exclude_extensions : Option (List String)) (filepath : String) : Bool :=
  match exclude_extensions with
  | none => false
  | some exts => exts.any (fun ext => endsWithStr (lowerStr filepath) (lowerStr ext))

/-- Lines 38–54, first pass: group surviving files by `os.path.getsize`,
skipping excluded paths and files whose size query raises. -/
def size_to_files (fs : List FSFile) (exclude_extensions : Option (List String)) :
    List (Nat × List String) :=
  fs.foldl (fun m f =>
    if isExcluded exclude_extensions f.path then m
    else
      match f.statSize with
      | some size => insertMulti m size f.path
      | none => m) []

/-- Lines 57–58: keep size buckets with more than one file. -/
def potential_duplicates (fs : List FSFile) (exclude_extensions : Option (List String)) :
    List (Nat × List String) :=
  (size_to_files fs exclude_extensions).filter (fun pr => decide (1 < pr.2.length))

/-- The file paths the hashing pass visits, in visit order. -/
def candidate_paths (fs : List FSFile) (exclude_extensions : Option (List String)) :
    List String :=
  (potential_duplicates fs exclude_extensions).flatMap (fun pr => pr.2)

/-- Lines 72–80, inner loop: hash each path of one size bucket.
`IOError`/`OSError` is caught (the file is skipped, line 79); a `ValueError`
is not caught and aborts the whole call. -/
def hash_bucket (fs : List FSFile) (alg : String)
    (m : List (String × List String)) :
    List String → Except String (List (String × List String))
  | [] => .ok m
  | p :: rest =>
    match calculate_file_hash fs p alg 65536 with
    | .ok file_hash => hash_bucket fs alg (insertMulti m file_hash p) rest
    | .error .ioError => hash_bucket fs alg m rest
    | .error (.valueError msg) => .error msg

/-- Line 71, outer loop over the size buckets. -/
def hash_buckets (fs : List FSFile) (alg : String)
    (m : List (String × List String)) :
    List (Nat × List String) → Except String (List (String × List String))
  | [] => .ok m
  | pr :: rest => do
    let m' ← hash_bucket fs alg m pr.2
    hash_buckets fs alg m' rest

/-- Lines 66–81: the global fingerprint-keyed map (a single `defaultdict`
flattened across all size buckets). -/
def hash_to_files (fs : List FSFile) (alg : String)
    (exclude_extensions : Option (List String)) :
    Except String (List (String × List String)) :=
  hash_buckets fs alg [] (potential_duplicates fs exclude_extensions)

/-- Lines 28–88: full `find_duplicate_files`.  Line 60's early return fires
when no size bucket has two files; otherwise singleton fingerprint buckets
are filtered out (lines 85–86). -/
def find_duplicate_files (fs : List FSFile) (hash_algorithm : String)
    (exclude_extensions : Option (List String)) :
    Except String (List (String × List String)) :=
  if (potential_duplicates fs exclude_extensions).isEmpty then .ok []
  else
    (hash_to_files fs hash_algorithm exclude_extensions).map
      (fun m => m.filter (fun pr => decide (1 < pr.2.length)))

/-- Lines 79–80: the paths whose hashing raised `IOError`/`OSError`, i.e.
the per-file errors reported to standard error during the second pass. -/
def hash_errors (fs : List FSFile) (alg : String)
    (exclude_extensions : Option (List String)) : List String :=
  (candidate_paths fs exclude_extensions).filter
    (fun p =>
      match calculate_file_hash fs p alg 65536 with
      | .error .ioError => true
      | _ => false)

/-! ## Report rendering and `main` (lines 90–151) -/

/-- Lines 90–95: `format_size`.  The script renders the scaled figure with
two float decimal places; floating point is not modelled, so the scaled
value is shown by integer division with literal `.00` decimals.  No claim
depends on the rendered digits, only on which lines are emitted. -/
def format_size_units (size_bytes : Nat) : List String → String
  | [] => ""
  | [unit] => toString size_bytes ++ ".00 " ++ unit
  | unit :: rest =>
    if size_bytes < 1024 then toString size_bytes ++ ".00 " ++ unit
    else format_size_units (size_bytes / 1024) rest

/-- `format_size(size_bytes)` over the unit ladder of line 92. -/
def format_size (size_bytes : Nat) : String :=
  format_size_units size_bytes ["B", "KB", "MB", "GB", "TB"]

/-- Lines 129–135: the space-savings loop.  The `os.path.getsize` call on a
group's first member (line 133) is not inside a `try`, so its failure
aborts `main`; that is the `.error` case (carrying the offending path). -/
def savings_loop (fs : List FSFile) :
    List (String × List String) → Nat → Except String Nat
  | [], acc => .ok acc
  | pr :: rest, acc =>
    match pr.2 with
    | [] => savings_loop fs rest acc
    | p :: _ =>
      match statOf fs p with
      | some file_size => savings_loop fs rest (acc + (pr.2.length - 1) * file_size)
      | none => .error p

/-- `space_savings` as accumulated by lines 129–135. -/
def space_savings (fs : List FSFile) (duplicates : List (String × List String)) :
    Except String Nat :=
  savings_loop fs duplicates 0

/-- Lines 139–144: the per-group listing (header with fingerprint and
human-readable size, then the member paths, two-space indented).  The
`os.path.getsize` on line 141 is again unguarded. -/
def group_lines (fs : List FSFile) :
    List (String × List String) → Except String (List String)
  | [] => .ok []
  | pr :: rest =>
    match pr.2 with
    | [] => group_lines fs rest
    | p :: _ =>
      match statOf fs p with
      | some size => do
        let tail ← group_lines fs rest
        .ok (("\nDuplicate files with hash " ++ pr.1 ++ " (" ++ format_size size ++ "):")
          :: pr.2.map (fun filepath => "  " ++ filepath) ++ tail)
      | none => .error p

/-- Line 125: `sum(len(files) for files in duplicates.values()) - len(duplicates)`. -/
def duplicate_count (duplicates : List (String × List String)) : Nat :=
  duplicates.foldl (fun acc pr => acc + pr.2.length) 0 - duplicates.length

/-- Lines 119–144: the sequence of lines `main` sends to the output stream,
one list element per `print` call (embedded newlines kept).  `.error` is an
unguarded `os.path.getsize` failure during rendering. -/
def report_lines (fs : List FSFile) (duplicates : List (String × List String)) :
    Except String (List String) :=
  if duplicates.isEmpty then .ok ["No duplicate files found."]
  else do
    let savings ← space_savings fs duplicates
    let groups ← group_lines fs duplicates
    .ok (("\nFound " ++ toString (duplicate_count duplicates) ++
            " duplicate files across " ++ toString duplicates.length ++ " groups:")
      :: ("Potential space savings: " ++ format_size savings)
      :: groups)

/-- `os.walk(directory)`: a missing root raises inside `scandir`, but
`os.walk`'s default `onerror=None` swallows the error, so the walk of a
nonexistent directory yields no entries at all. -/
def os_walk (directory : Option (List FSFile)) : List FSFile :=
  match directory with
  | none => []
  | some fs => fs

/-- Lines 108–111: prepend a dot to each `--exclude` value that lacks one
(`None` stays `None`). -/
def normalize_excludes : Option (List String) → Option (List String)
  | none => none
  | some exts => some (exts.map (fun ext => if ext.startsWith "." then ext else "." ++ ext))

/-- Lines 97–151: `main` for an already-validated command line.  Result is
the process exit code plus, when the command finishes normally, the lines
written to the output stream.  An uncaught exception (a `ValueError` from
hashing or a render-time `getsize` failure) terminates Python with a
traceback and exit code 1; the lines already flushed before such a crash
are modelled separately by `writeAll`. -/
def run_main (directory : Option (List FSFile)) (algorithm : String)
    (exclude : Option (List String)) : Nat × Option (List String) :=
  let fs := os_walk directory
  let exclude_extensions := normalize_excludes exclude
  match find_duplicate_files fs algorithm exclude_extensions with
  | .error _ => (1, none)
  | .ok duplicates =>
    match report_lines fs duplicates with
    | .error _ => (1, none)
    | .ok lines => (0, some lines)

/-- The destination sink of the report: each `print` writes one line and
consumes one unit of capacity; the write after capacity is exhausted raises
(full disk, closed pipe, …).  Returns the lines actually written and
whether every write succeeded.  The script wraps none of its report writes
in `try`, so a failed write propagates and the earlier lines remain. -/
def writeAll (capacity : Nat) : List String → List String × Bool
  | [] => ([], true)
  | line :: rest =>
    match capacity with
    | 0 => ([], false)
    | c + 1 =>
      let result := writeAll c rest
      (line :: result.1, result.2)

/-! ## Specification-side definitions and wellformedness -/

/-- Written from the spec (§4.1): hashing the entire content in a single
step — one `update` of the whole byte string on a fresh hasher, then
`hexdigest`.  Reference point for the chunked `calculate_file_hash`. -/
def hash_whole (algorithm : String) (content : List Nat) : Option String :=
  (mkHasher algorithm).map (fun h => (h.update content).hexdigest)

/-- Written from the spec (§3): estimated reclaimable bytes =
Σ over groups of (group size − 1) × representative (first member) file size. -/
def reclaimableSpec (fs : List FSFile) : List (String × List String) → Nat
  | [] => 0
  | pr :: rest =>
    (pr.2.length - 1) * ((pr.2.head?.bind (statOf fs)).getD 0) + reclaimableSpec fs rest

/-- The walk of a real directory tree lists each path at most once. -/
def PathsNodup (fs : List FSFile) : Prop :=
  (fs.map (fun f => f.path)).Nodup

/-- One file's `getsize` result agrees with the length of its content,
whenever both operations succeed. -/
def coherentB (f : FSFile) : Bool :=
  match f.statSize, f.content with
  | some s, some c => c.length == s
  | _, _ => true

/-- One file's content, if readable, consists of genuine bytes (< 256). -/
def bytesValidB (f : FSFile) : Bool :=
  match f.content with
  | some c => c.all (fun b => decide (b < 256))
  | none => true

/-- On a real filesystem a successful `getsize` agrees with the length of a
successfully read content. -/
def Coherent (fs : List FSFile) : Prop :=
  ∀ f ∈ fs, coherentB f = true

/-- File contents are byte streams: every element is below 256. -/
def BytesValid (fs : List FSFile) : Prop :=
  ∀ f ∈ fs, bytesValidB f = true

/-- A filesystem snapshot that a real scan could observe. -/
structure Wellformed (fs : List FSFile) : Prop where
  nodup : PathsNodup fs
  coherent : Coherent fs
  bytes : BytesValid fs

/-! ## Pipeline bookkeeping used by the proofs -/

/-- The (size, path) pair a file contributes to the first pass, if any. -/
def sizeEntry (exclude_extensions : Option (List String)) (f : FSFile) :
    Option (Nat × String) :=
  if isExcluded exclude_extensions f.path then none
  else f.statSize.map (fun s => (s, f.path))

/-- All first-pass contributions in walk order. -/
def statPairs (fs : List FSFile) (exclude_extensions : Option (List String)) :
    List (Nat × String) :=
  fs.filterMap (sizeEntry exclude_extensions)

/-- The (fingerprint, path) pair a candidate contributes to the second
pass, if its hash succeeds. -/
def pairFor (fs : List FSFile) (alg : String) (p : String) :
    Option (String × String) :=
  match calculate_file_hash fs p alg 65536 with
  | .ok h => some (h, p)
  | .error _ => none

/-- All second-pass contributions in visit order. -/
def hashPairs (fs : List FSFile) (alg : String)
    (exclude_extensions : Option (List String)) : List (String × String) :=
  (candidate_paths fs exclude_extensions).filterMap (pairFor fs alg)

/-! ## Lemmas: the streaming read loop -/

theorem readLoopAux_bounded (bufferSize : Nat) (hbs : 0 < bufferSize) :
    ∀ (fuel : Nat) (h : Hasher) (content : List Nat), content.length ≤ fuel →
      readLoopAux fuel h content bufferSize = h.update content := by
  intro fuel
  induction fuel with
  | zero =>
    intro h content hlen
    have hnil : content = [] := List.eq_nil_of_length_eq_zero (Nat.le_zero.mp hlen)
    subst hnil
    simp [readLoopAux, Hasher.update]
  | succ n ih =>
    intro h content hlen
    unfold readLoopAux
    by_cases hc : (content.take bufferSize).length = 0
    · rw [if_pos hc]
      have hnil : content = [] := by
        simp only [List.length_take] at hc
        have : content.length = 0 := by omega
        exact List.eq_nil_of_length_eq_zero this
      subst hnil
      simp [Hasher.update]
    · rw [if_neg hc]
      have hdrop : (content.drop bufferSize).length ≤ n := by
        simp only [List.length_take] at hc
        simp only [List.length_drop]
        omega
      rw [ih (h.update (content.take bufferSize)) (content.drop bufferSize) hdrop]
      simp [Hasher.update, List.take_append_drop]

/-- The read loop feeds exactly the whole content, for any positive buffer. -/
theorem readLoop_eq_update (h : Hasher) (content : List Nat) (bufferSize : Nat)
    (hbs : 0 < bufferSize) : readLoop h content bufferSize = h.update content :=
  readLoopAux_bounded bufferSize hbs content.length h content le_rfl

theorem mkHasher_eq_some {algorithm : String} {h0 : Hasher}
    (h : mkHasher algorithm = some h0) : h0 = ⟨algorithm, []⟩ := by
  unfold mkHasher at h
  by_cases h1 : algorithm = "md5"
  · rw [if_pos h1] at h; cases h; rw [h1]
  · rw [if_neg h1] at h
    by_cases h2 : algorithm = "sha1"
    · rw [if_pos h2] at h; cases h; rw [h2]
    · rw [if_neg h2] at h
      by_cases h3 : algorithm = "sha256"
      · rw [if_pos h3] at h; cases h; rw [h3]
      · rw [if_neg h3] at h; cases h

theorem mkHasher_supported {algorithm : String}
    (h : algorithm = "md5" ∨ algorithm = "sha1" ∨ algorithm = "sha256") :
    mkHasher algorithm = some ⟨algorithm, []⟩ := by
  rcases h with h | h | h <;> subst h <;> rfl

theorem calculate_file_hash_ok_iff {fs : List FSFile} {filepath algorithm : String}
    {buffer_size : Nat} {d : String} (hbs : 0 < buffer_size) :
    calculate_file_hash fs filepath algorithm buffer_size = .ok d ↔
      mkHasher algorithm = some ⟨algorithm, []⟩ ∧
        ∃ c, readFile fs filepath = some c ∧ d = digestBytes algorithm c := by
  unfold calculate_file_hash
  cases hmk : mkHasher algorithm with
  | none => simp
  | some h0 =>
    have h0eq := mkHasher_eq_some hmk
    subst h0eq
    cases hrd : readFile fs filepath with
    | none => simp
    | some c =>
      simp [readLoop_eq_update _ _ _ hbs, Hasher.update, Hasher.hexdigest, eq_comm]

theorem calculate_file_hash_io_iff {fs : List FSFile} {filepath algorithm : String}
    {buffer_size : Nat} :
    calculate_file_hash fs filepath algorithm buffer_size = .error .ioError ↔
      (∃ h0, mkHasher algorithm = some h0) ∧ readFile fs filepath = none := by
  unfold calculate_file_hash
  cases hmk : mkHasher algorithm with
  | none => simp
  | some h0 =>
    cases hrd : readFile fs filepath with
    | none => simp
    | some c => simp

theorem calculate_file_hash_no_valueError {fs : List FSFile} {filepath algorithm : String}
    {buffer_size : Nat} {h0 : Hasher} {msg : String}
    (hmk : mkHasher algorithm = some h0) :
    calculate_file_hash fs filepath algorithm buffer_size ≠ .error (.valueError msg) := by
  unfold calculate_file_hash
  rw [hmk]
  cases readFile fs filepath <;> simp

/-! ## Lemmas: insertion-ordered multimaps -/

theorem keysOf_nil {α β : Type} : keysOf ([] : List (α × List β)) = [] := rfl

theorem keysOf_cons {α β : Type} (pr : α × List β) (m : List (α × List β)) :
    keysOf (pr :: m) = pr.1 :: keysOf m := rfl

theorem insertMulti_nil {α β : Type} [DecidableEq α] (k : α) (v : β) :
    insertMulti [] k v = [(k, [v])] := rfl

theorem insertMulti_cons {α β : Type} [DecidableEq α]
    (k' : α) (vs : List β) (rest : List (α × List β)) (k : α) (v : β) :
    insertMulti ((k', vs) :: rest) k v =
      if k' = k then (k', vs ++ [v]) :: rest
      else (k', vs) :: insertMulti rest k v := rfl

theorem lookupMulti_nil {α β : Type} [DecidableEq α] (k : α) :
    lookupMulti ([] : List (α × List β)) k = [] := rfl

theorem lookupMulti_cons {α β : Type} [DecidableEq α]
    (k' : α) (vs : List β) (rest : List (α × List β)) (k : α) :
    lookupMulti ((k', vs) :: rest) k = if k' = k then vs else lookupMulti rest k := rfl

theorem lookupMulti_insert_self {α β : Type} [DecidableEq α]
    (m : List (α × List β)) (k : α) (v : β) :
    lookupMulti (insertMulti m k v) k = lookupMulti m k ++ [v] := by
  induction m with
  | nil => simp [insertMulti_nil, lookupMulti_cons, lookupMulti_nil]
  | cons pr rest ih =>
    obtain ⟨k', vs⟩ := pr
    rw [insertMulti_cons]
    by_cases h : k' = k
    · rw [if_pos h, lookupMulti_cons, lookupMulti_cons, if_pos h, if_pos h]
    · rw [if_neg h, lookupMulti_cons, lookupMulti_cons, if_neg h, if_neg h, ih]

theorem lookupMulti_insert_ne {α β : Type} [DecidableEq α]
    (m : List (α × List β)) (k k₂ : α) (v : β) (hne : k₂ ≠ k) :
    lookupMulti (insertMulti m k v) k₂ = lookupMulti m k₂ := by
  have hne' : ¬(k = k₂) := fun h => hne h.symm
  induction m with
  | nil => rw [insertMulti_nil, lookupMulti_cons, if_neg hne', lookupMulti_nil]
  | cons pr rest ih =>
    obtain ⟨k', vs⟩ := pr
    rw [insertMulti_cons]
    by_cases h : k' = k
    · subst h
      rw [if_pos rfl, lookupMulti_cons, lookupMulti_cons, if_neg hne', if_neg hne']
    · rw [if_neg h, lookupMulti_cons, lookupMulti_cons, ih]

theorem keysOf_insert_mem {α β : Type} [DecidableEq α]
    (m : List (α × List β)) (k : α) (v : β) :
    k ∈ keysOf m → keysOf (insertMulti m k v) = keysOf m := by
  induction m with
  | nil => intro hmem; simp [keysOf_nil] at hmem
  | cons pr rest ih =>
    obtain ⟨k', vs⟩ := pr
    intro hmem
    rw [insertMulti_cons]
    by_cases h : k' = k
    · rw [if_pos h, keysOf_cons, keysOf_cons]
    · have hmem' : k ∈ keysOf rest := by
        rw [keysOf_cons, List.mem_cons] at hmem
        rcases hmem with h1 | h1
        · exact absurd h1.symm h
        · exact h1
      rw [if_neg h, keysOf_cons, keysOf_cons, ih hmem']

theorem keysOf_insert_not_mem {α β : Type} [DecidableEq α]
    (m : List (α × List β)) (k : α) (v : β) :
    k ∉ keysOf m → keysOf (insertMulti m k v) = keysOf m ++ [k] := by
  induction m with
  | nil => intro _; rfl
  | cons pr rest ih =>
    obtain ⟨k', vs⟩ := pr
    intro hmem
    rw [insertMulti_cons]
    by_cases h : k' = k
    · exfalso
      apply hmem
      rw [keysOf_cons, h]
      exact List.mem_cons_self _ _
    · have hmem' : k ∉ keysOf rest := by
        intro hc
        exact hmem (by rw [keysOf_cons]; exact List.mem_cons_of_mem _ hc)
      rw [if_neg h, keysOf_cons, keysOf_cons, ih hmem', List.cons_append]

theorem mem_keysOf_insert {α β : Type} [DecidableEq α]
    (m : List (α × List β)) (k k₂ : α) (v : β) :
    k₂ ∈ keysOf (insertMulti m k v) ↔ k₂ ∈ keysOf m ∨ k₂ = k := by
  by_cases h : k ∈ keysOf m
  · rw [keysOf_insert_mem m k v h]
    constructor
    · exact fun hx => Or.inl hx
    · rintro (hx | rfl)
      · exact hx
      · exact h
  · rw [keysOf_insert_not_mem m k v h]
    simp

theorem nodup_keysOf_insert {α β : Type} [DecidableEq α]
    (m : List (α × List β)) (k : α) (v : β) (hnd : (keysOf m).Nodup) :
    (keysOf (insertMulti m k v)).Nodup := by
  by_cases h : k ∈ keysOf m
  · rw [keysOf_insert_mem m k v h]; exact hnd
  · rw [keysOf_insert_not_mem m k v h]
    simp [List.nodup_append, hnd, h]

theorem mem_keysOf_of_mem {α β : Type} {m : List (α × List β)} {k : α} {vs : List β}
    (h : (k, vs) ∈ m) : k ∈ keysOf m :=
  List.mem_map.mpr ⟨(k, vs), h, rfl⟩

theorem mem_multimap {α β : Type} [DecidableEq α]
    (m : List (α × List β)) (hnd : (keysOf m).Nodup) (k : α) (vs : List β) :
    (k, vs) ∈ m ↔ k ∈ keysOf m ∧ lookupMulti m k = vs := by
  induction m with
  | nil => simp [keysOf_nil, lookupMulti_nil]
  | cons pr rest ih =>
    obtain ⟨k', vs'⟩ := pr
    rw [keysOf_cons, List.nodup_cons] at hnd
    have hnd' := hnd.2
    have hknotin : k' ∉ keysOf rest := hnd.1
    rw [keysOf_cons, lookupMulti_cons, List.mem_cons]
    by_cases h : k' = k
    · subst h
      rw [if_pos rfl]
      constructor
      · rintro (heq | hmem)
        · cases heq
          exact ⟨List.mem_cons_self _ _, rfl⟩
        · exact absurd (mem_keysOf_of_mem hmem) hknotin
      · rintro ⟨-, rfl⟩
        exact Or.inl rfl
    · rw [if_neg h, List.mem_cons]
      constructor
      · rintro (heq | hmem)
        · cases heq
          exact absurd rfl h
        · have := (ih hnd').mp hmem
          exact ⟨Or.inr this.1, this.2⟩
      · rintro ⟨hk, hlk⟩
        rcases hk with rfl | hk
        · exact absurd rfl h
        · exact Or.inr ((ih hnd').mpr ⟨hk, hlk⟩)

/-! ## Lemmas: `buildFrom` -/

theorem buildFrom_nil {α β : Type} [DecidableEq α] (m0 : List (α × List β)) :
    buildFrom m0 [] = m0 := rfl

theorem buildFrom_cons {α β : Type} [DecidableEq α]
    (m0 : List (α × List β)) (pr : α × β) (ps : List (α × β)) :
    buildFrom m0 (pr :: ps) = buildFrom (insertMulti m0 pr.1 pr.2) ps := rfl

theorem buildFrom_append {α β : Type} [DecidableEq α]
    (m0 : List (α × List β)) (ps qs : List (α × β)) :
    buildFrom m0 (ps ++ qs) = buildFrom (buildFrom m0 ps) qs :=
  List.foldl_append _ _ _ _

theorem lookupMulti_buildFrom {α β : Type} [DecidableEq α] :
    ∀ (ps : List (α × β)) (m0 : List (α × List β)) (k : α),
      lookupMulti (buildFrom m0 ps) k =
        lookupMulti m0 k ++ (ps.filter (fun pr => decide (pr.1 = k))).map (fun pr => pr.2) := by
  intro ps
  induction ps with
  | nil => intro m0 k; simp [buildFrom_nil]
  | cons pr ps ih =>
    intro m0 k
    obtain ⟨k₁, v₁⟩ := pr
    rw [buildFrom_cons, ih]
    by_cases h : k₁ = k
    · subst h
      rw [lookupMulti_insert_self]
      simp [List.append_assoc]
    · rw [lookupMulti_insert_ne _ _ _ _ (fun hx => h hx.symm)]
      simp [h]

theorem mem_keysOf_buildFrom {α β : Type} [DecidableEq α] :
    ∀ (ps : List (α × β)) (m0 : List (α × List β)) (k : α),
      k ∈ keysOf (buildFrom m0 ps) ↔ k ∈ keysOf m0 ∨ k ∈ ps.map (fun pr => pr.1) := by
  intro ps
  induction ps with
  | nil => intro m0 k; simp [buildFrom_nil]
  | cons pr ps ih =>
    intro m0 k
    rw [buildFrom_cons, ih, mem_keysOf_insert]
    simp
    tauto

theorem nodup_keysOf_buildFrom {α β : Type} [DecidableEq α] :
    ∀ (ps : List (α × β)) (m0 : List (α × List β)),
      (keysOf m0).Nodup → (keysOf (buildFrom m0 ps)).Nodup := by
  intro ps
  induction ps with
  | nil => intro m0 h; exact h
  | cons pr ps ih =>
    intro m0 h
    rw [buildFrom_cons]
    exact ih _ (nodup_keysOf_insert _ _ _ h)

/-! ## Lemmas: flattened values of the maps -/

theorem flat_insertMulti {α β : Type} [DecidableEq α]
    (m : List (α × List β)) (k : α) (v : β) :
    ((insertMulti m k v).flatMap (fun pr => pr.2)).Perm
      ((m.flatMap (fun pr => pr.2)) ++ [v]) := by
  induction m with
  | nil => simp [insertMulti_nil]
  | cons pr rest ih =>
    obtain ⟨k', vs⟩ := pr
    rw [insertMulti_cons]
    by_cases h : k' = k
    · rw [if_pos h]
      simp only [List.flatMap_cons]
      rw [List.append_assoc, List.append_assoc]
      exact List.Perm.append_left vs (List.perm_append_comm)
    · rw [if_neg h]
      simp only [List.flatMap_cons]
      rw [List.append_assoc]
      exact List.Perm.append_left vs ih

theorem flat_buildFrom {α β : Type} [DecidableEq α] :
    ∀ (ps : List (α × β)) (m0 : List (α × List β)),
      ((buildFrom m0 ps).flatMap (fun pr => pr.2)).Perm
        ((m0.flatMap (fun pr => pr.2)) ++ ps.map (fun pr => pr.2)) := by
  intro ps
  induction ps with
  | nil => intro m0; simp [buildFrom_nil]
  | cons pr ps ih =>
    intro m0
    obtain ⟨k₁, v₁⟩ := pr
    rw [buildFrom_cons]
    refine (ih _).trans ?_
    have h1 := flat_insertMulti m0 k₁ v₁
    have h2 := h1.append_right (ps.map (fun pr => pr.2))
    refine h2.trans ?_
    rw [List.append_assoc]
    exact List.Perm.refl _

theorem flatMap_sublist {α β : Type} (f : α → List β) :
    ∀ {l₁ l₂ : List α}, List.Sublist l₁ l₂ → List.Sublist (l₁.flatMap f) (l₂.flatMap f) := by
  intro l₁ l₂ h
  induction h with
  | slnil => exact List.Sublist.refl _
  | cons a _ ih =>
    rw [List.flatMap_cons]
    exact ih.trans (List.sublist_append_right _ _)
  | cons₂ a _ ih =>
    rw [List.flatMap_cons, List.flatMap_cons]
    exact ih.append_left _

theorem filterMap_snd_sublist {α β γ : Type} (g : α → Option (γ × β)) (f : α → β)
    (hg : ∀ a p, g a = some p → p.2 = f a) :
    ∀ l : List α, List.Sublist ((l.filterMap g).map (fun pr => pr.2)) (l.map f) := by
  intro l
  induction l with
  | nil => simp
  | cons a l ih =>
    rw [List.map_cons]
    cases hga : g a with
    | none =>
      rw [List.filterMap_cons_none hga]
      exact ih.trans (List.sublist_cons_self _ _)
    | some p =>
      rw [List.filterMap_cons_some hga, List.map_cons, hg a p hga]
      exact ih.cons₂ _

/-! ## Lemmas: the size pass -/

theorem sizeEntry_eq_some {exclude_extensions : Option (List String)} {f : FSFile}
    {pr : Nat × String} :
    sizeEntry exclude_extensions f = some pr ↔
      isExcluded exclude_extensions f.path = false ∧
        f.statSize = some pr.1 ∧ f.path = pr.2 := by
  unfold sizeEntry
  by_cases h : isExcluded exclude_extensions f.path
  · simp [h]
  · cases hs : f.statSize with
    | none => simp [h, hs]
    | some s =>
      obtain ⟨a, b⟩ := pr
      simp only [eq_false_of_ne_true h, if_neg h, hs, Option.map_some', Option.some_inj,
        true_and]
      constructor
      · rintro h1
        cases h1
        exact ⟨rfl, rfl⟩
      · rintro ⟨h1, h2⟩
        cases h1
        rw [h2]
        simp

theorem mem_statPairs {fs : List FSFile} {exclude_extensions : Option (List String)}
    {s : Nat} {p : String} :
    (s, p) ∈ statPairs fs exclude_extensions ↔
      ∃ f ∈ fs, f.path = p ∧ isExcluded exclude_extensions f.path = false ∧
        f.statSize = some s := by
  unfold statPairs
  rw [List.mem_filterMap]
  constructor
  · rintro ⟨f, hf, hsome⟩
    obtain ⟨hex, hsz, hp⟩ := sizeEntry_eq_some.mp hsome
    exact ⟨f, hf, hp, hex, hsz⟩
  · rintro ⟨f, hf, hp, hex, hsz⟩
    exact ⟨f, hf, sizeEntry_eq_some.mpr ⟨hex, hsz, hp⟩⟩

theorem size_to_files_eq_buildFrom (fs : List FSFile)
    (exclude_extensions : Option (List String)) :
    size_to_files fs exclude_extensions = buildFrom [] (statPairs fs exclude_extensions) := by
  suffices h : ∀ (fs : List FSFile) (m0 : List (Nat × List String)),
      fs.foldl (fun m f =>
        if isExcluded exclude_extensions f.path then m
        else
          match f.statSize with
          | some size => insertMulti m size f.path
          | none => m) m0 = buildFrom m0 (statPairs fs exclude_extensions) by
    exact h fs []
  intro fs
  induction fs with
  | nil => intro m0; rfl
  | cons f fs ih =>
    intro m0
    rw [List.foldl_cons]
    unfold statPairs
    by_cases hex : isExcluded exclude_extensions f.path
    · rw [if_pos hex]
      rw [List.filterMap_cons_none (by unfold sizeEntry; rw [if_pos hex])]
      exact ih m0
    · rw [if_neg hex]
      cases hs : f.statSize with
      | none =>
        rw [List.filterMap_cons_none (by unfold sizeEntry; rw [if_neg hex, hs]; rfl)]
        exact ih m0
      | some s =>
        rw [List.filterMap_cons_some
          (show sizeEntry exclude_extensions f = some (s, f.path) by
            unfold sizeEntry; rw [if_neg hex, hs]; rfl)]
        rw [buildFrom_cons]
        exact ih _

theorem nodup_keys_size_to_files (fs : List FSFile)
    (exclude_extensions : Option (List String)) :
    (keysOf (size_to_files fs exclude_extensions)).Nodup := by
  rw [size_to_files_eq_buildFrom]
  exact nodup_keysOf_buildFrom _ _ (by simp [keysOf_nil])

theorem mem_size_to_files {fs : List FSFile} {exclude_extensions : Option (List String)}
    {s : Nat} {l : List String} :
    (s, l) ∈ size_to_files fs exclude_extensions ↔
      s ∈ (statPairs fs exclude_extensions).map (fun pr => pr.1) ∧
        l = ((statPairs fs exclude_extensions).filter
              (fun pr => decide (pr.1 = s))).map (fun pr => pr.2) := by
  rw [mem_multimap _ (nodup_keys_size_to_files fs exclude_extensions),
    size_to_files_eq_buildFrom, lookupMulti_buildFrom, mem_keysOf_buildFrom]
  simp [keysOf_nil, lookupMulti_nil, eq_comm]

theorem mem_filter_fst_map_snd {α β : Type} [DecidableEq α]
    (ps : List (α × β)) (k : α) (b : β) :
    b ∈ (ps.filter (fun pr => decide (pr.1 = k))).map (fun pr => pr.2) ↔ (k, b) ∈ ps := by
  rw [List.mem_map]
  constructor
  · rintro ⟨⟨a, b'⟩, hmem, rfl⟩
    rw [List.mem_filter] at hmem
    have : a = k := by simpa using hmem.2
    subst this
    exact hmem.1
  · intro hmem
    exact ⟨(k, b), List.mem_filter.mpr ⟨hmem, by simp⟩, rfl⟩

theorem mem_potential_duplicates {fs : List FSFile}
    {exclude_extensions : Option (List String)} {pr : Nat × List String} :
    pr ∈ potential_duplicates fs exclude_extensions ↔
      pr ∈ size_to_files fs exclude_extensions ∧ 1 < pr.2.length := by
  unfold potential_duplicates
  rw [List.mem_filter]
  simp

theorem mem_candidate_paths {fs : List FSFile}
    {exclude_extensions : Option (List String)} {p : String} :
    p ∈ candidate_paths fs exclude_extensions ↔
      ∃ s l, (s, l) ∈ potential_duplicates fs exclude_extensions ∧ p ∈ l := by
  unfold candidate_paths
  rw [List.mem_flatMap]
  constructor
  · rintro ⟨⟨s, l⟩, hmem, hp⟩
    exact ⟨s, l, hmem, hp⟩
  · rintro ⟨s, l, hmem, hp⟩
    exact ⟨(s, l), hmem, hp⟩

/-- Every candidate path entered the size pass: it belongs to some file that
survived the exclusion filter and the size query. -/
theorem candidate_paths_sound {fs : List FSFile}
    {exclude_extensions : Option (List String)} {p : String}
    (h : p ∈ candidate_paths fs exclude_extensions) :
    ∃ s, (s, p) ∈ statPairs fs exclude_extensions := by
  obtain ⟨s, l, hmem, hp⟩ := mem_candidate_paths.mp h
  obtain ⟨hsz, -⟩ := mem_potential_duplicates.mp hmem
  obtain ⟨-, hl⟩ := mem_size_to_files.mp hsz
  subst hl
  exact ⟨s, (mem_filter_fst_map_snd _ _ _).mp hp⟩

/-- Conversely: a path whose size bucket has a second distinct member is a
candidate for hashing. -/
theorem candidate_paths_complete {fs : List FSFile}
    {exclude_extensions : Option (List String)} {s : Nat} {p q : String}
    (hp : (s, p) ∈ statPairs fs exclude_extensions)
    (hq : (s, q) ∈ statPairs fs exclude_extensions) (hne : p ≠ q) :
    p ∈ candidate_paths fs exclude_extensions := by
  set bucket := ((statPairs fs exclude_extensions).filter
    (fun pr => decide (pr.1 = s))).map (fun pr => pr.2) with hbucket
  have hpmem : p ∈ bucket := (mem_filter_fst_map_snd _ _ _).mpr hp
  have hqmem : q ∈ bucket := (mem_filter_fst_map_snd _ _ _).mpr hq
  have hlen : 1 < bucket.length := by
    cases hb : bucket with
    | nil => rw [hb] at hpmem; simp at hpmem
    | cons x rest =>
      cases hr : rest with
      | nil =>
        rw [hb, hr] at hpmem hqmem
        simp at hpmem hqmem
        exact absurd (hpmem.trans hqmem.symm) hne
      | cons y rest' => simp [hb, hr]
  have hentry : (s, bucket) ∈ size_to_files fs exclude_extensions := by
    rw [mem_size_to_files]
    refine ⟨?_, rfl⟩
    exact List.mem_map.mpr ⟨(s, p), hp, rfl⟩
  have hpot : (s, bucket) ∈ potential_duplicates fs exclude_extensions :=
    mem_potential_duplicates.mpr ⟨hentry, hlen⟩
  exact mem_candidate_paths.mpr ⟨s, bucket, hpot, hpmem⟩

/-! ## Lemmas: the hashing pass -/

theorem pairFor_eq_some {fs : List FSFile} {alg p : String} {pr : String × String} :
    pairFor fs alg p = some pr ↔
      calculate_file_hash fs p alg 65536 = .ok pr.1 ∧ pr.2 = p := by
  unfold pairFor
  cases hc : calculate_file_hash fs p alg 65536 with
  | ok d =>
    obtain ⟨d', q⟩ := pr
    constructor
    · intro h
      cases h
      exact ⟨rfl, rfl⟩
    · rintro ⟨h1, rfl⟩
      cases h1
      rfl
  | error e => simp

theorem mem_hashPairs {fs : List FSFile} {alg : String}
    {exclude_extensions : Option (List String)} {d p : String} :
    (d, p) ∈ hashPairs fs alg exclude_extensions ↔
      p ∈ candidate_paths fs exclude_extensions ∧
        calculate_file_hash fs p alg 65536 = .ok d := by
  unfold hashPairs
  rw [List.mem_filterMap]
  constructor
  · rintro ⟨q, hq, hsome⟩
    obtain ⟨hhash, hp⟩ := pairFor_eq_some.mp hsome
    cases hp
    exact ⟨hq, hhash⟩
  · rintro ⟨hq, hhash⟩
    exact ⟨p, hq, pairFor_eq_some.mpr ⟨hhash, rfl⟩⟩

theorem hash_bucket_ok {fs : List FSFile} {alg : String} {h0 : Hasher}
    (hmk : mkHasher alg = some h0) :
    ∀ (ps : List String) (m : List (String × List String)),
      hash_bucket fs alg m ps = .ok (buildFrom m (ps.filterMap (pairFor fs alg))) := by
  intro ps
  induction ps with
  | nil => intro m; rfl
  | cons p rest ih =>
    intro m
    unfold hash_bucket
    cases hc : calculate_file_hash fs p alg 65536 with
    | ok d =>
      have hpair : pairFor fs alg p = some (d, p) :=
        (@pairFor_eq_some fs alg p (d, p)).mpr ⟨hc, rfl⟩
      rw [List.filterMap_cons_some hpair, buildFrom_cons]
      exact ih _
    | error e =>
      cases e with
      | ioError =>
        rw [List.filterMap_cons_none (by unfold pairFor; rw [hc])]
        exact ih m
      | valueError msg =>
        exact absurd hc (calculate_file_hash_no_valueError hmk)

theorem hash_buckets_ok {fs : List FSFile} {alg : String} {h0 : Hasher}
    (hmk : mkHasher alg = some h0) :
    ∀ (bs : List (Nat × List String)) (m : List (String × List String)),
      hash_buckets fs alg m bs =
        .ok (buildFrom m ((bs.flatMap (fun pr => pr.2)).filterMap (pairFor fs alg))) := by
  intro bs
  induction bs with
  | nil => intro m; rfl
  | cons pr rest ih =>
    intro m
    unfold hash_buckets
    rw [hash_bucket_ok hmk]
    show hash_buckets fs alg (buildFrom m (pr.2.filterMap (pairFor fs alg))) rest = _
    rw [ih, List.flatMap_cons, List.filterMap_append, buildFrom_append]

theorem hash_to_files_ok {fs : List FSFile} {alg : String}
    {exclude_extensions : Option (List String)} {h0 : Hasher}
    (hmk : mkHasher alg = some h0) :
    hash_to_files fs alg exclude_extensions =
      .ok (buildFrom [] (hashPairs fs alg exclude_extensions)) := by
  unfold hash_to_files hashPairs candidate_paths
  rw [hash_buckets_ok hmk]

theorem hash_to_files_unsupported {fs : List FSFile} {alg : String}
    {exclude_extensions : Option (List String)}
    (hmk : mkHasher alg = none)
    (hne : (potential_duplicates fs exclude_extensions).isEmpty = false) :
    hash_to_files fs alg exclude_extensions =
      .error ("Unsupported hash algorithm: " ++ alg) := by
  unfold hash_to_files
  cases hpot : potential_duplicates fs exclude_extensions with
  | nil => rw [hpot] at hne; simp at hne
  | cons pr rest =>
    have hmem : pr ∈ potential_duplicates fs exclude_extensions := by
      rw [hpot]; exact List.mem_cons_self _ _
    have hlen : 1 < pr.2.length := (mem_potential_duplicates.mp hmem).2
    obtain ⟨p, ps, hps⟩ : ∃ p ps, pr.2 = p :: ps := by
      cases h2 : pr.2 with
      | nil => rw [h2] at hlen; simp at hlen
      | cons p ps => exact ⟨p, ps, rfl⟩
    unfold hash_buckets
    rw [hps]
    unfold hash_bucket
    have hcalc : calculate_file_hash fs p alg 65536 =
        .error (.valueError ("Unsupported hash algorithm: " ++ alg)) := by
      unfold calculate_file_hash
      rw [hmk]
    rw [hcalc]
    rfl

/-- Behaviour of a successful `find_duplicate_files` call: either the early
return of line 60 fired, or the algorithm was valid and the result is the
fingerprint map restricted to buckets with at least two members. -/
theorem find_duplicate_files_cases {fs : List FSFile} {alg : String}
    {exclude_extensions : Option (List String)} {out : List (String × List String)}
    (h : find_duplicate_files fs alg exclude_extensions = .ok out) :
    ((potential_duplicates fs exclude_extensions).isEmpty = true ∧ out = []) ∨
      ((potential_duplicates fs exclude_extensions).isEmpty = false ∧
        mkHasher alg = some ⟨alg, []⟩ ∧
        out = (buildFrom [] (hashPairs fs alg exclude_extensions)).filter
                (fun pr => decide (1 < pr.2.length))) := by
  unfold find_duplicate_files at h
  cases hpot : (potential_duplicates fs exclude_extensions).isEmpty with
  | true =>
    rw [hpot, if_pos rfl] at h
    cases h
    exact Or.inl ⟨rfl, rfl⟩
  | false =>
    rw [hpot] at h
    simp only [Bool.false_eq_true, if_false] at h
    cases hmk : mkHasher alg with
    | none =>
      rw [hash_to_files_unsupported hmk hpot] at h
      exact Except.noConfusion h
    | some h0 =>
      rw [hash_to_files_ok hmk] at h
      replace h :
          (Except.ok ((buildFrom [] (hashPairs fs alg exclude_extensions)).filter
              (fun pr => decide (1 < pr.2.length))) :
            Except String (List (String × List String))) = Except.ok out := h
      injection h with h
      refine Or.inr ⟨rfl, ?_, h.symm⟩
      rw [← mkHasher_eq_some hmk]

/-! ## Lemmas: path lookup on a duplicate-free walk -/

theorem find?_path_eq {fs : List FSFile} (hnd : PathsNodup fs) :
    ∀ {f : FSFile}, f ∈ fs → fs.find? (fun g => g.path == f.path) = some f := by
  unfold PathsNodup at hnd
  induction fs with
  | nil => intro f hf; simp at hf
  | cons g rest ih =>
    intro f hf
    rw [List.map_cons, List.nodup_cons] at hnd
    cases hbeq : (g.path == f.path) with
    | true =>
      rw [@List.find?_cons_of_pos _ (fun g => g.path == f.path) g rest hbeq]
      have hpath : g.path = f.path := by simpa using hbeq
      rcases List.mem_cons.mp hf with rfl | hf'
      · rfl
      · exfalso
        apply hnd.1
        rw [hpath]
        exact List.mem_map.mpr ⟨f, hf', rfl⟩
    | false =>
      rw [List.find?_cons_of_neg _ (by simp [hbeq])]
      rcases List.mem_cons.mp hf with rfl | hf'
      · simp at hbeq
      · exact ih hnd.2 hf'

theorem readFile_of_mem {fs : List FSFile} (hnd : PathsNodup fs) {f : FSFile}
    (hf : f ∈ fs) : readFile fs f.path = f.content := by
  unfold readFile
  rw [find?_path_eq hnd hf]
  rfl

theorem statOf_of_mem {fs : List FSFile} (hnd : PathsNodup fs) {f : FSFile}
    (hf : f ∈ fs) : statOf fs f.path = f.statSize := by
  unfold statOf
  rw [find?_path_eq hnd hf]
  rfl

theorem readFile_some {fs : List FSFile} {p : String} {c : List Nat}
    (h : readFile fs p = some c) :
    ∃ f ∈ fs, f.path = p ∧ f.content = some c := by
  unfold readFile at h
  cases hfind : fs.find? (fun g => g.path == p) with
  | none => rw [hfind] at h; cases h
  | some f =>
    rw [hfind] at h
    refine ⟨f, List.mem_of_find?_eq_some hfind, ?_, h⟩
    have := List.find?_some hfind
    simpa using this

/-! ## Lemmas: the ideal digest -/

theorem hexVal_hexChar {n : Nat} (h : n < 16) : hexVal (hexChar n) = n := by
  interval_cases n <;> rfl

theorem algTag_valid (algorithm : String) : ∀ b ∈ algTag algorithm, b < 256 := by
  unfold algTag
  split <;> simp

theorem unhexBytes_flatMap_hexPair :
    ∀ (l : List Nat), (∀ b ∈ l, b < 256) → unhexBytes (l.flatMap hexPair) = l := by
  intro l
  induction l with
  | nil => intro _; rfl
  | cons b l ih =>
    intro hvalid
    have hb : b < 256 := hvalid b (List.mem_cons_self _ _)
    have hdiv : b / 16 < 16 := by omega
    have hmod : b % 16 < 16 := by omega
    rw [List.flatMap_cons]
    show unhexBytes (hexChar (b / 16) :: hexChar (b % 16) :: l.flatMap hexPair) = b :: l
    unfold unhexBytes
    rw [hexVal_hexChar hdiv, hexVal_hexChar hmod,
      ih (fun x hx => hvalid x (List.mem_cons_of_mem _ hx))]
    congr 1
    omega

/-- The modelled digest is injective on byte streams for a fixed algorithm. -/
theorem digestBytes_inj {algorithm : String} {c₁ c₂ : List Nat}
    (h₁ : ∀ b ∈ c₁, b < 256) (h₂ : ∀ b ∈ c₂, b < 256)
    (heq : digestBytes algorithm c₁ = digestBytes algorithm c₂) : c₁ = c₂ := by
  unfold digestBytes at heq
  have hlists : (algTag algorithm ++ c₁).flatMap hexPair =
      (algTag algorithm ++ c₂).flatMap hexPair := by
    have := congrArg String.data heq
    simpa using this
  have hv₁ : ∀ b ∈ algTag algorithm ++ c₁, b < 256 := by
    intro b hb
    rcases List.mem_append.mp hb with hb | hb
    · exact algTag_valid algorithm b hb
    · exact h₁ b hb
  have hv₂ : ∀ b ∈ algTag algorithm ++ c₂, b < 256 := by
    intro b hb
    rcases List.mem_append.mp hb with hb | hb
    · exact algTag_valid algorithm b hb
    · exact h₂ b hb
  have hcat : algTag algorithm ++ c₁ = algTag algorithm ++ c₂ := by
    rw [← unhexBytes_flatMap_hexPair _ hv₁, ← unhexBytes_flatMap_hexPair _ hv₂, hlists]
  exact List.append_cancel_left hcat

theorem hexChar_lower {n : Nat} (h : n < 16) : isLowerHexDigit (hexChar n) = true := by
  interval_cases n <;> rfl

/-- Every character of a digest of genuine bytes is a lowercase hex digit. -/
theorem digestBytes_lower {algorithm : String} {c : List Nat}
    (hc : ∀ b ∈ c, b < 256) :
    ∀ ch ∈ (digestBytes algorithm c).data, isLowerHexDigit ch = true := by
  intro ch hch
  unfold digestBytes at hch
  simp only [String.data] at hch
  rw [List.mem_flatMap] at hch
  obtain ⟨b, hb, hchb⟩ := hch
  have hb256 : b < 256 := by
    rcases List.mem_append.mp hb with hb' | hb'
    · exact algTag_valid algorithm b hb'
    · exact hc b hb'
  unfold hexPair at hchb
  rcases List.mem_cons.mp hchb with rfl | hchb'
  · exact hexChar_lower (by omega)
  · rcases List.mem_cons.mp hchb' with rfl | hnil
    · exact hexChar_lower (by omega)
    · simp at hnil

theorem coherent_apply {fs : List FSFile} (h : Coherent fs) {f : FSFile}
    (hf : f ∈ fs) {s : Nat} {c : List Nat}
    (hs : f.statSize = some s) (hc : f.content = some c) : c.length = s := by
  have hcf := h f hf
  rw [coherentB, hs, hc] at hcf
  simpa using hcf

theorem bytesValid_apply {fs : List FSFile} (h : BytesValid fs) {f : FSFile}
    (hf : f ∈ fs) {c : List Nat} (hc : f.content = some c) : ∀ b ∈ c, b < 256 := by
  have hbf := h f hf
  rw [bytesValidB, hc] at hbf
  intro b hb
  have := List.all_eq_true.mp hbf b hb
  simpa using this

theorem eq_of_path_eq {fs : List FSFile} (hnd : PathsNodup fs) {f g : FSFile}
    (hf : f ∈ fs) (hg : g ∈ fs) (hpath : f.path = g.path) : f = g := by
  have h1 := find?_path_eq hnd hf
  have h2 := find?_path_eq hnd hg
  rw [← hpath] at h2
  rw [h1] at h2
  exact Option.some.inj h2

/-! ## Lemmas: no path is duplicated anywhere in the pipeline -/

theorem statPairs_snd_sublist (fs : List FSFile) (ex : Option (List String)) :
    List.Sublist ((statPairs fs ex).map (fun pr => pr.2)) (fs.map (fun f => f.path)) :=
  filterMap_snd_sublist (sizeEntry ex) (fun f => f.path)
    (fun _ _ h => ((sizeEntry_eq_some.mp h).2.2).symm) fs

theorem flat_size_to_files_nodup {fs : List FSFile} {ex : Option (List String)}
    (hnd : PathsNodup fs) :
    ((size_to_files fs ex).flatMap (fun pr => pr.2)).Nodup := by
  rw [size_to_files_eq_buildFrom]
  have hperm :
      ((buildFrom [] (statPairs fs ex)).flatMap (fun pr => pr.2)).Perm
        ((statPairs fs ex).map (fun pr => pr.2)) := by
    simpa using flat_buildFrom (statPairs fs ex) []
  rw [hperm.nodup_iff]
  exact (statPairs_snd_sublist fs ex).nodup hnd

theorem candidate_paths_nodup {fs : List FSFile} {ex : Option (List String)}
    (hnd : PathsNodup fs) : (candidate_paths fs ex).Nodup := by
  have hsub : List.Sublist (candidate_paths fs ex)
      ((size_to_files fs ex).flatMap (fun pr => pr.2)) :=
    flatMap_sublist _ (List.filter_sublist _)
  exact hsub.nodup (flat_size_to_files_nodup hnd)

theorem hashPairs_snd_sublist (fs : List FSFile) (alg : String)
    (ex : Option (List String)) :
    List.Sublist ((hashPairs fs alg ex).map (fun pr => pr.2)) (candidate_paths fs ex) := by
  have h := filterMap_snd_sublist (pairFor fs alg) (fun p => p)
    (fun p pr hp => (pairFor_eq_some.mp hp).2) (candidate_paths fs ex)
  simpa using h

theorem mem_buildFrom_nil {α β : Type} [DecidableEq α]
    (ps : List (α × β)) (k : α) (l : List β) :
    (k, l) ∈ buildFrom [] ps ↔
      k ∈ ps.map (fun pr => pr.1) ∧
        l = (ps.filter (fun pr => decide (pr.1 = k))).map (fun pr => pr.2) := by
  rw [mem_multimap _ (nodup_keysOf_buildFrom ps [] (by simp [keysOf_nil])),
    lookupMulti_buildFrom, mem_keysOf_buildFrom]
  simp [keysOf_nil, lookupMulti_nil, eq_comm]

/-- Facts about any path recorded in the fingerprint map: the file it came
from, its content, its digest and its size-pass record. -/
theorem group_member_facts {fs : List FSFile} {alg : String}
    {ex : Option (List String)} {d p : String}
    (h : (d, p) ∈ hashPairs fs alg ex) :
    ∃ (f : FSFile) (c : List Nat) (s : Nat), f ∈ fs ∧ f.path = p ∧
      f.content = some c ∧ d = digestBytes alg c ∧ (s, p) ∈ statPairs fs ex := by
  obtain ⟨hcand, hcalc⟩ := mem_hashPairs.mp h
  have h65536 : (0 : Nat) < 65536 := by decide
  obtain ⟨-, c, hread, hd⟩ := (calculate_file_hash_ok_iff h65536).mp hcalc
  obtain ⟨f, hf, hfp, hfc⟩ := readFile_some hread
  obtain ⟨s, hs⟩ := candidate_paths_sound hcand
  exact ⟨f, c, s, hf, hfp, hfc, hd, hs⟩

/-! ## Concrete filesystems used by witnesses and counterexamples -/

/-- Two byte-identical readable files of size 3. -/
def fsPair : List FSFile :=
  [⟨"a.jpg", some 3, some [1, 2, 3]⟩, ⟨"b.jpg", some 3, some [1, 2, 3]⟩]

/-- The duplicate report for `fsPair`. -/
def dupsPair : List (String × List String) :=
  [(digestBytes "md5" [1, 2, 3], ["a.jpg", "b.jpg"])]

theorem fsPair_wellformed : Wellformed fsPair :=
  ⟨by unfold PathsNodup; decide, by unfold Coherent; decide,
    by unfold BytesValid; decide⟩

theorem find_fsPair : find_duplicate_files fsPair "md5" none = .ok dupsPair := rfl

/-! ## C1 -/

/-- C1: for every directory tree and duplicate mapping returned by
`find_duplicate_files`, any two file entries appearing in the same
duplicate group have identical byte size, even though the returned mapping
is a single fingerprint-keyed map flattened across all size buckets. -/
theorem duplicate_group_size_invariant {fs : List FSFile} {alg : String}
    {ex : Option (List String)} {out : List (String × List String)}
    {d : String} {l : List String} {p q : String}
    (hwf : Wellformed fs)
    (hout : find_duplicate_files fs alg ex = .ok out)
    (hmem : (d, l) ∈ out) (hp : p ∈ l) (hq : q ∈ l) :
    statOf fs p = statOf fs q ∧ ∃ s, statOf fs p = some s := by
  rcases find_duplicate_files_cases hout with ⟨-, rfl⟩ | ⟨-, hmk, rfl⟩
  · simp at hmem
  · rw [List.mem_filter] at hmem
    obtain ⟨hmemb, -⟩ := hmem
    obtain ⟨-, hl⟩ := (mem_buildFrom_nil _ _ _).mp hmemb
    subst hl
    have hp' : (d, p) ∈ hashPairs fs alg ex := (mem_filter_fst_map_snd _ _ _).mp hp
    have hq' : (d, q) ∈ hashPairs fs alg ex := (mem_filter_fst_map_snd _ _ _).mp hq
    obtain ⟨f1, c1, s1, hf1, hf1p, hf1c, hd1, hs1⟩ := group_member_facts hp'
    obtain ⟨f2, c2, s2, hf2, hf2p, hf2c, hd2, hs2⟩ := group_member_facts hq'
    have hceq : c1 = c2 :=
      digestBytes_inj (bytesValid_apply hwf.bytes hf1 hf1c)
        (bytesValid_apply hwf.bytes hf2 hf2c) (hd1.symm.trans hd2)
    obtain ⟨g1, hg1, hg1p, -, hg1s⟩ := mem_statPairs.mp hs1
    obtain ⟨g2, hg2, hg2p, -, hg2s⟩ := mem_statPairs.mp hs2
    have hgf1 : g1 = f1 := eq_of_path_eq hwf.nodup hg1 hf1 (hg1p.trans hf1p.symm)
    have hgf2 : g2 = f2 := eq_of_path_eq hwf.nodup hg2 hf2 (hg2p.trans hf2p.symm)
    subst hgf1
    subst hgf2
    have hlen1 : c1.length = s1 := coherent_apply hwf.coherent hf1 hg1s hf1c
    have hlen2 : c2.length = s2 := coherent_apply hwf.coherent hf2 hg2s hf2c
    have hstatp : statOf fs p = some s1 := by
      rw [← hf1p, statOf_of_mem hwf.nodup hf1, hg1s]
    have hstatq : statOf fs q = some s2 := by
      rw [← hf2p, statOf_of_mem hwf.nodup hf2, hg2s]
    refine ⟨?_, s1, hstatp⟩
    rw [hstatp, hstatq]
    subst hceq
    congr 1
    omega

/-- C1 applied to a concrete run. -/
theorem duplicate_group_size_invariant_witness :
    Wellformed fsPair ∧
      (statOf fsPair "a.jpg" = statOf fsPair "b.jpg" ∧
        ∃ s, statOf fsPair "a.jpg" = some s) :=
  ⟨fsPair_wellformed,
    duplicate_group_size_invariant fsPair_wellformed find_fsPair
      (List.mem_cons_self _ _) (by decide) (by decide)⟩

/-! ## C7 -/

/-- C7: every duplicate group in the output of `find_duplicate_files` has at
least 2 members — singleton fingerprint buckets are filtered out and never
surface in the returned mapping. -/
theorem no_singleton_groups {fs : List FSFile} {alg : String}
    {ex : Option (List String)} {out : List (String × List String)}
    {d : String} {l : List String}
    (hout : find_duplicate_files fs alg ex = .ok out)
    (hmem : (d, l) ∈ out) : 2 ≤ l.length := by
  rcases find_duplicate_files_cases hout with ⟨-, rfl⟩ | ⟨-, -, rfl⟩
  · simp at hmem
  · rw [List.mem_filter] at hmem
    have hlen := hmem.2
    simp at hlen
    omega

/-- C7 applied to a concrete run. -/
theorem no_singleton_groups_witness :
    (digestBytes "md5" [1, 2, 3], ["a.jpg", "b.jpg"]) ∈ dupsPair ∧
      2 ≤ (["a.jpg", "b.jpg"] : List String).length :=
  ⟨List.mem_cons_self _ _,
    no_singleton_groups find_fsPair (List.mem_cons_self _ _)⟩

/-! ## C10 -/

/-- C10 (implicit): every file path occurs at most once across the entire
output — at most one duplicate group, and at most once within it — because
the walk enumerates each path once, each file lands in one size bucket, is
hashed at most once, and is inserted under a single fingerprint key. -/
theorem paths_unique_across_output {fs : List FSFile} {alg : String}
    {ex : Option (List String)} {out : List (String × List String)}
    (hnd : PathsNodup fs)
    (hout : find_duplicate_files fs alg ex = .ok out) :
    (out.flatMap (fun pr => pr.2)).Nodup := by
  rcases find_duplicate_files_cases hout with ⟨-, rfl⟩ | ⟨-, -, rfl⟩
  · simp
  · have hperm :
        ((buildFrom [] (hashPairs fs alg ex)).flatMap (fun pr => pr.2)).Perm
          ((hashPairs fs alg ex).map (fun pr => pr.2)) := by
      simpa using flat_buildFrom (hashPairs fs alg ex) []
    have hmapnd : ((hashPairs fs alg ex).map (fun pr => pr.2)).Nodup :=
      (hashPairs_snd_sublist fs alg ex).nodup (candidate_paths_nodup hnd)
    have hbuildnd :
        ((buildFrom [] (hashPairs fs alg ex)).flatMap (fun pr => pr.2)).Nodup :=
      hperm.nodup_iff.mpr hmapnd
    exact (flatMap_sublist _ (List.filter_sublist _)).nodup hbuildnd

/-- C10 applied to a concrete run. -/
theorem paths_unique_across_output_witness :
    PathsNodup fsPair ∧ (dupsPair.flatMap (fun pr => pr.2)).Nodup :=
  ⟨fsPair_wellformed.nodup,
    paths_unique_across_output fsPair_wellformed.nodup find_fsPair⟩

/-! ## C8 -/

/-- C8: a file whose path ends case-insensitively with one of the excluded
extension strings — a match on the path's trailing characters, not only a
true extension boundary — never appears in any output duplicate group. -/
theorem excluded_extension_never_grouped {fs : List FSFile} {alg : String}
    {exts : List String} {out : List (String × List String)}
    {d : String} {l : List String} {p : String}
    (hex : exts.any (fun ext => endsWithStr (lowerStr p) (lowerStr ext)) = true)
    (hout : find_duplicate_files fs alg (some exts) = .ok out)
    (hmem : (d, l) ∈ out) : p ∉ l := by
  intro hp
  rcases find_duplicate_files_cases hout with ⟨-, h0⟩ | ⟨-, -, h0⟩
  · subst h0; simp at hmem
  · subst h0
    rw [List.mem_filter] at hmem
    obtain ⟨-, hl⟩ := (mem_buildFrom_nil _ _ _).mp hmem.1
    subst hl
    have hp' : (d, p) ∈ hashPairs fs alg (some exts) :=
      (mem_filter_fst_map_snd _ _ _).mp hp
    obtain ⟨hcand, -⟩ := mem_hashPairs.mp hp'
    obtain ⟨s, hs⟩ := candidate_paths_sound hcand
    obtain ⟨f, hf, hfp, hfe, -⟩ := mem_statPairs.mp hs
    rw [hfp] at hfe
    have hfe' : (exts.any (fun ext => endsWithStr (lowerStr p) (lowerStr ext))) = false := hfe
    rw [hex] at hfe'
    cases hfe'

/-- Three files of identical content, one carrying an excluded extension. -/
def fsExcl : List FSFile :=
  [⟨"c.LOG", some 3, some [1, 2, 3]⟩,
   ⟨"a.dat", some 3, some [1, 2, 3]⟩,
   ⟨"b.dat", some 3, some [1, 2, 3]⟩]

theorem find_fsExcl :
    find_duplicate_files fsExcl "md5" (some [".log"]) =
      .ok [(digestBytes "md5" [1, 2, 3], ["a.dat", "b.dat"])] := rfl

/-- C8 applied to a concrete run with `--exclude .log`. -/
theorem excluded_extension_never_grouped_witness :
    (([".log"] : List String).any
        (fun ext => endsWithStr (lowerStr "c.LOG") (lowerStr ext))) = true ∧
      "c.LOG" ∉ (["a.dat", "b.dat"] : List String) :=
  ⟨by decide,
    excluded_extension_never_grouped (by decide) find_fsExcl
      (List.mem_cons_self _ _)⟩

/-! ## C2 -/

theorem one_lt_length_of_two_mem {α : Type} {l : List α} {a b : α}
    (ha : a ∈ l) (hb : b ∈ l) (hne : a ≠ b) : 1 < l.length := by
  cases l with
  | nil => simp at ha
  | cons x rest =>
    cases rest with
    | nil =>
      simp at ha hb
      exact absurd (ha.trans hb.symm) hne
    | cons y rest' => simp

/-- C2: two distinct files under the scanned root with byte-identical
readable contents, successful size queries, and neither excluded by
extension, appear together in exactly one duplicate group of the output. -/
theorem identical_files_in_exactly_one_group {fs : List FSFile} {alg : String}
    {ex : Option (List String)} {out : List (String × List String)}
    {f1 f2 : FSFile} {c : List Nat} {s1 s2 : Nat}
    (hwf : Wellformed fs) (hf1 : f1 ∈ fs) (hf2 : f2 ∈ fs)
    (hne : f1.path ≠ f2.path)
    (hc1 : f1.content = some c) (hc2 : f2.content = some c)
    (hs1 : f1.statSize = some s1) (hs2 : f2.statSize = some s2)
    (hex1 : isExcluded ex f1.path = false) (hex2 : isExcluded ex f2.path = false)
    (hout : find_duplicate_files fs alg ex = .ok out) :
    ∃ pr, pr ∈ out ∧ (f1.path ∈ pr.2 ∧ f2.path ∈ pr.2) ∧
      ∀ pr', pr' ∈ out → f1.path ∈ pr'.2 → f2.path ∈ pr'.2 → pr' = pr := by
  have hlen1 : c.length = s1 := coherent_apply hwf.coherent hf1 hs1 hc1
  have hlen2 : c.length = s2 := coherent_apply hwf.coherent hf2 hs2 hc2
  have hs2' : f2.statSize = some s1 := by
    rw [hs2, show s2 = s1 by omega]
  have hp1 : (s1, f1.path) ∈ statPairs fs ex :=
    mem_statPairs.mpr ⟨f1, hf1, rfl, hex1, hs1⟩
  have hp2 : (s1, f2.path) ∈ statPairs fs ex :=
    mem_statPairs.mpr ⟨f2, hf2, rfl, hex2, hs2'⟩
  have hcand1 : f1.path ∈ candidate_paths fs ex :=
    candidate_paths_complete hp1 hp2 hne
  have hcand2 : f2.path ∈ candidate_paths fs ex :=
    candidate_paths_complete hp2 hp1 (fun h => hne h.symm)
  rcases find_duplicate_files_cases hout with ⟨hempty, -⟩ | ⟨-, hmk, hofilter⟩
  · exfalso
    obtain ⟨s', l', hpot, -⟩ := mem_candidate_paths.mp hcand1
    rw [List.isEmpty_iff] at hempty
    rw [hempty] at hpot
    simp at hpot
  · subst hofilter
    have hcalc1 : calculate_file_hash fs f1.path alg 65536 =
        .ok (digestBytes alg c) := by
      refine (calculate_file_hash_ok_iff (by decide)).mpr ⟨hmk, c, ?_, rfl⟩
      rw [readFile_of_mem hwf.nodup hf1, hc1]
    have hcalc2 : calculate_file_hash fs f2.path alg 65536 =
        .ok (digestBytes alg c) := by
      refine (calculate_file_hash_ok_iff (by decide)).mpr ⟨hmk, c, ?_, rfl⟩
      rw [readFile_of_mem hwf.nodup hf2, hc2]
    have hhp1 : (digestBytes alg c, f1.path) ∈ hashPairs fs alg ex :=
      mem_hashPairs.mpr ⟨hcand1, hcalc1⟩
    have hhp2 : (digestBytes alg c, f2.path) ∈ hashPairs fs alg ex :=
      mem_hashPairs.mpr ⟨hcand2, hcalc2⟩
    set bucket := ((hashPairs fs alg ex).filter
      (fun pr => decide (pr.1 = digestBytes alg c))).map (fun pr => pr.2) with hbucket
    have hb1 : f1.path ∈ bucket := (mem_filter_fst_map_snd _ _ _).mpr hhp1
    have hb2 : f2.path ∈ bucket := (mem_filter_fst_map_snd _ _ _).mpr hhp2
    have hblen : 1 < bucket.length := one_lt_length_of_two_mem hb1 hb2 hne
    have hentry : (digestBytes alg c, bucket) ∈
        buildFrom [] (hashPairs fs alg ex) := by
      rw [mem_buildFrom_nil]
      exact ⟨List.mem_map.mpr ⟨(digestBytes alg c, f1.path), hhp1, rfl⟩, rfl⟩
    have hout' : (digestBytes alg c, bucket) ∈
        (buildFrom [] (hashPairs fs alg ex)).filter
          (fun pr => decide (1 < pr.2.length)) :=
      List.mem_filter.mpr ⟨hentry, by simpa using hblen⟩
    refine ⟨(digestBytes alg c, bucket), hout', ⟨hb1, hb2⟩, ?_⟩
    rintro ⟨d', l'⟩ hpr' hin1 hin2
    rw [List.mem_filter] at hpr'
    have hchar := (mem_buildFrom_nil _ _ _).mp hpr'.1
    have hin1' : (d', f1.path) ∈ hashPairs fs alg ex := by
      rw [hchar.2] at hin1
      exact (mem_filter_fst_map_snd _ _ _).mp hin1
    have hd' : d' = digestBytes alg c := by
      obtain ⟨-, hcalc'⟩ := mem_hashPairs.mp hin1'
      have := hcalc1.symm.trans hcalc'
      exact (Except.ok.inj this).symm
    subst hd'
    have hl' : l' = bucket := by
      rw [hchar.2, hbucket]
    rw [hl']

/-- C2 applied to a concrete run. -/
theorem identical_files_in_exactly_one_group_witness :
    ∃ pr, pr ∈ dupsPair ∧ ("a.jpg" ∈ pr.2 ∧ "b.jpg" ∈ pr.2) ∧
      ∀ pr', pr' ∈ dupsPair → "a.jpg" ∈ pr'.2 → "b.jpg" ∈ pr'.2 → pr' = pr :=
  @identical_files_in_exactly_one_group fsPair "md5" none dupsPair
    ⟨"a.jpg", some 3, some [1, 2, 3]⟩ ⟨"b.jpg", some 3, some [1, 2, 3]⟩
    [1, 2, 3] 3 3 fsPair_wellformed (by decide) (by decide) (by decide)
    rfl rfl rfl rfl rfl rfl find_fsPair

/-! ## C9 -/

/-- C9: for every supported algorithm selector and file content,
`calculate_file_hash` — which folds the content chunk-by-chunk in
bounded-size buffers — returns the same digest as hashing the entire
content in a single step (`hash_whole`), rendered as a lowercase
hexadecimal string; this holds for every chunk boundary (any positive
buffer size), including the empty file. -/
theorem chunked_hash_equals_whole_hash {fs : List FSFile}
    {filepath algorithm : String} {content : List Nat} {buffer_size : Nat}
    (halg : algorithm = "md5" ∨ algorithm = "sha1" ∨ algorithm = "sha256")
    (hread : readFile fs filepath = some content)
    (hbuf : 0 < buffer_size)
    (hbytes : ∀ b ∈ content, b < 256) :
    ∃ d, hash_whole algorithm content = some d ∧
      calculate_file_hash fs filepath algorithm buffer_size = .ok d ∧
      ∀ ch ∈ d.data, isLowerHexDigit ch = true := by
  have hmk : mkHasher algorithm = some ⟨algorithm, []⟩ := mkHasher_supported halg
  refine ⟨digestBytes algorithm content, ?_, ?_, ?_⟩
  · unfold hash_whole
    rw [hmk]
    simp [Hasher.update, Hasher.hexdigest]
  · exact (calculate_file_hash_ok_iff hbuf).mpr ⟨hmk, content, hread, rfl⟩
  · exact digestBytes_lower hbytes

/-- An empty file and a 3-byte file whose size is not a multiple of the
buffer used on it. -/
def fsEmptyFile : List FSFile := [⟨"e.jpg", some 0, some []⟩]

def fsOdd : List FSFile := [⟨"o.jpg", some 3, some [10, 255, 16]⟩]

/-- C9 applied concretely: the empty file under the default buffer, and an
odd-length file under buffer size 2 (a ragged final chunk). -/
theorem chunked_hash_equals_whole_hash_witness :
    (∃ d, hash_whole "md5" [] = some d ∧
        calculate_file_hash fsEmptyFile "e.jpg" "md5" 65536 = .ok d ∧
        ∀ ch ∈ d.data, isLowerHexDigit ch = true) ∧
      (∃ d, hash_whole "sha256" [10, 255, 16] = some d ∧
        calculate_file_hash fsOdd "o.jpg" "sha256" 2 = .ok d ∧
        ∀ ch ∈ d.data, isLowerHexDigit ch = true) :=
  ⟨chunked_hash_equals_whole_hash (Or.inl rfl) rfl (by decide) (by decide),
    chunked_hash_equals_whole_hash (Or.inr (Or.inr rfl)) rfl (by decide) (by decide)⟩

/-! ## C3 (corrected) -/

/-- C3 counterexample: with a nonexistent root directory the program does
NOT fail — `os.walk` swallows the scandir error and yields nothing, so the
scan completes normally, the report reads "No duplicate files found." and
the exit code is 0, refuting the claimed NotFoundError with non-zero exit. -/
theorem missing_directory_exits_zero :
    run_main none "md5" none = (0, some ["No duplicate files found."]) := rfl

/-- C3 amended: if the root directory does not exist, `os.walk` enumerates
nothing (its default `onerror=None` ignores the scandir failure); the
program performs no per-file work, completes normally with the
"No duplicate files found." report, and exits 0 — for every algorithm and
exclusion list. -/
theorem missing_directory_scan_completes_normally (algorithm : String)
    (exclude : Option (List String)) :
    os_walk none = [] ∧
      run_main none algorithm exclude = (0, some ["No duplicate files found."]) :=
  ⟨rfl, rfl⟩

/-! ## C5 (corrected) -/

/-- The lines `main` prints for the `fsPair` run. -/
def reportPair : List String :=
  ["\nFound 1 duplicate files across 1 groups:",
   "Potential space savings: 3.00 B",
   "\nDuplicate files with hash 00010203 (3.00 B):",
   "  a.jpg",
   "  b.jpg"]

/-- C5 counterexample: rendering is not all-or-nothing.  On a concrete run
whose report has five lines, a destination that fails after one write
leaves exactly the header line in the output — a nonempty, incomplete
(partially written) report — while the write error propagates. -/
theorem partial_report_counterexample :
    find_duplicate_files fsPair "md5" none = .ok dupsPair ∧
      report_lines fsPair dupsPair = .ok reportPair ∧
      (writeAll 1 reportPair).1 = ["\nFound 1 duplicate files across 1 groups:"] ∧
      (writeAll 1 reportPair).2 = false ∧
      (writeAll 1 reportPair).1 ≠ [] ∧
      (writeAll 1 reportPair).1 ≠ reportPair :=
  ⟨rfl, rfl, rfl, rfl, by decide, by decide⟩

/-- C5 amended: the report is not built and serialized atomically — `main`
writes it line by line straight to the destination.  If the sink fails
after `capacity` successful writes, exactly the first `capacity` lines have
been emitted (a partial report when the report is longer), and the failure
is surfaced, not swallowed. -/
theorem report_streamed_incrementally {fs : List FSFile}
    {dups : List (String × List String)} {lines : List String} (capacity : Nat)
    (_h : report_lines fs dups = .ok lines) :
    (writeAll capacity lines).1 = lines.take capacity ∧
      ((writeAll capacity lines).2 = true ↔ lines.length ≤ capacity) := by
  clear _h
  induction lines generalizing capacity with
  | nil => simp [writeAll]
  | cons line rest ih =>
    cases capacity with
    | zero => simp [writeAll]
    | succ cap =>
      have hrec := ih cap
      unfold writeAll
      simp only [List.take_succ_cons, List.length_cons]
      constructor
      · rw [hrec.1]
      · rw [hrec.2]
        omega

/-- C5 amended claim applied to the concrete run with a failing sink. -/
theorem report_streamed_incrementally_witness :
    (writeAll 1 reportPair).1 = reportPair.take 1 ∧
      ((writeAll 1 reportPair).2 = true ↔ reportPair.length ≤ 1) :=
  report_streamed_incrementally 1
    (show report_lines fsPair dupsPair = .ok reportPair from rfl)

/-! ## C6 -/

theorem reclaimableSpec_cons (fs : List FSFile) (pr : String × List String)
    (rest : List (String × List String)) :
    reclaimableSpec fs (pr :: rest) =
      (pr.2.length - 1) * ((pr.2.head?.bind (statOf fs)).getD 0) +
        reclaimableSpec fs rest := rfl

theorem savings_loop_ok {fs : List FSFile} :
    ∀ (dups : List (String × List String)),
      (∀ pr ∈ dups, ∀ p rest, pr.2 = p :: rest → ∃ s, statOf fs p = some s) →
      ∀ acc, savings_loop fs dups acc = .ok (acc + reclaimableSpec fs dups) := by
  intro dups
  induction dups with
  | nil => intro _ acc; simp [savings_loop, reclaimableSpec]
  | cons pr rest ih =>
    intro hall acc
    have hrest := fun q hq => hall q (List.mem_cons_of_mem _ hq)
    rw [reclaimableSpec_cons]
    unfold savings_loop
    cases hpr2 : pr.2 with
    | nil =>
      simp only [hpr2]
      rw [ih hrest acc]
      simp
    | cons p rest2 =>
      obtain ⟨s, hs⟩ := hall pr (List.mem_cons_self _ _) p rest2 hpr2
      simp only [hpr2, hs]
      rw [ih hrest]
      have hgetd : ((p :: rest2).head?.bind (statOf fs)).getD 0 = s := by
        simp [hs]
      rw [hgetd]
      congr 1
      generalize ((p :: rest2).length - 1) * s = k
      omega

/-- Every group in a successful output starts with a member whose size
query succeeds — which is why `main`'s render-time `getsize` cannot fail on
an unmodified tree. -/
theorem output_entry_stat {fs : List FSFile} {alg : String}
    {ex : Option (List String)} {out : List (String × List String)}
    (hnd : PathsNodup fs)
    (hout : find_duplicate_files fs alg ex = .ok out) :
    ∀ pr ∈ out, ∀ p rest, pr.2 = p :: rest → ∃ s, statOf fs p = some s := by
  intro pr hpr p rest hpr2
  rcases find_duplicate_files_cases hout with ⟨-, h0⟩ | ⟨-, -, h0⟩
  · subst h0; simp at hpr
  · subst h0
    rw [List.mem_filter] at hpr
    obtain ⟨d, l⟩ := pr
    obtain ⟨-, hl⟩ := (mem_buildFrom_nil _ _ _).mp hpr.1
    have hpin : p ∈ l := by
      have hl2 : l = p :: rest := hpr2
      rw [hl2]
      exact List.mem_cons_self _ _
    rw [hl] at hpin
    have hp' : (d, p) ∈ hashPairs fs alg ex := (mem_filter_fst_map_snd _ _ _).mp hpin
    obtain ⟨f, c, s, hf, hfp, -, -, hs⟩ := group_member_facts hp'
    obtain ⟨g, hg, hgp, -, hgs⟩ := mem_statPairs.mp hs
    refine ⟨s, ?_⟩
    rw [← hgp, statOf_of_mem hnd hg, hgs]

theorem space_savings_eq_spec {fs : List FSFile} {alg : String}
    {ex : Option (List String)} {out : List (String × List String)}
    (hnd : PathsNodup fs)
    (hout : find_duplicate_files fs alg ex = .ok out) :
    space_savings fs out = .ok (reclaimableSpec fs out) := by
  unfold space_savings
  rw [savings_loop_ok out (output_entry_stat hnd hout) 0]
  simp

/-- Three files of 1000 bytes each, exactly two byte-identical. -/
def contentA : List Nat := List.replicate 1000 7

def contentB : List Nat := List.replicate 1000 8

def fs1000 : List FSFile :=
  [⟨"a.jpg", some 1000, some contentA⟩,
   ⟨"b.jpg", some 1000, some contentA⟩,
   ⟨"c.jpg", some 1000, some contentB⟩]

def dups1000 : List (String × List String) :=
  [(digestBytes "md5" contentA, ["a.jpg", "b.jpg"])]

theorem contentA_bytes : ∀ b ∈ contentA, b < 256 := by
  intro b hb
  have := List.eq_of_mem_replicate hb
  omega

theorem contentB_bytes : ∀ b ∈ contentB, b < 256 := by
  intro b hb
  have := List.eq_of_mem_replicate hb
  omega

theorem contentA_ne_contentB : contentA ≠ contentB := by
  intro h
  have h7 : contentA.head? = some 7 := rfl
  rw [h] at h7
  have h8 : contentB.head? = some 8 := rfl
  rw [h7] at h8
  exact absurd h8 (by decide)

theorem digest_ne_1000 :
    digestBytes "md5" contentA ≠ digestBytes "md5" contentB :=
  fun h => contentA_ne_contentB (digestBytes_inj contentA_bytes contentB_bytes h)

theorem calc_fs1000_a :
    calculate_file_hash fs1000 "a.jpg" "md5" 65536 = .ok (digestBytes "md5" contentA) :=
  (calculate_file_hash_ok_iff (by decide)).mpr ⟨rfl, contentA, rfl, rfl⟩

theorem calc_fs1000_b :
    calculate_file_hash fs1000 "b.jpg" "md5" 65536 = .ok (digestBytes "md5" contentA) :=
  (calculate_file_hash_ok_iff (by decide)).mpr ⟨rfl, contentA, rfl, rfl⟩

theorem calc_fs1000_c :
    calculate_file_hash fs1000 "c.jpg" "md5" 65536 = .ok (digestBytes "md5" contentB) :=
  (calculate_file_hash_ok_iff (by decide)).mpr ⟨rfl, contentB, rfl, rfl⟩

theorem hashPairs_fs1000 :
    hashPairs fs1000 "md5" none =
      [(digestBytes "md5" contentA, "a.jpg"),
       (digestBytes "md5" contentA, "b.jpg"),
       (digestBytes "md5" contentB, "c.jpg")] := by
  unfold hashPairs
  rw [show candidate_paths fs1000 none = ["a.jpg", "b.jpg", "c.jpg"] from rfl]
  rw [List.filterMap_cons_some
    ((@pairFor_eq_some fs1000 "md5" "a.jpg"
      (digestBytes "md5" contentA, "a.jpg")).mpr ⟨calc_fs1000_a, rfl⟩)]
  rw [List.filterMap_cons_some
    ((@pairFor_eq_some fs1000 "md5" "b.jpg"
      (digestBytes "md5" contentA, "b.jpg")).mpr ⟨calc_fs1000_b, rfl⟩)]
  rw [List.filterMap_cons_some
    ((@pairFor_eq_some fs1000 "md5" "c.jpg"
      (digestBytes "md5" contentB, "c.jpg")).mpr ⟨calc_fs1000_c, rfl⟩)]
  rfl

theorem find_fs1000 : find_duplicate_files fs1000 "md5" none = .ok dups1000 := by
  unfold find_duplicate_files
  rw [if_neg (show ¬((potential_duplicates fs1000 none).isEmpty = true) by decide)]
  rw [hash_to_files_ok (show mkHasher "md5" = some ⟨"md5", []⟩ from rfl)]
  rw [hashPairs_fs1000]
  have hbuild : buildFrom []
      [(digestBytes "md5" contentA, "a.jpg"),
       (digestBytes "md5" contentA, "b.jpg"),
       (digestBytes "md5" contentB, "c.jpg")] =
      [(digestBytes "md5" contentA, ["a.jpg", "b.jpg"]),
       (digestBytes "md5" contentB, ["c.jpg"])] := by
    simp [buildFrom, insertMulti, digest_ne_1000]
  rw [hbuild]
  rfl

theorem savings_fs1000 : space_savings fs1000 dups1000 = .ok 1000 := rfl

/-- C6: the reclaimable-bytes figure computed by `main` (lines 129–135)
always equals Σ over groups of (members − 1) × representative shared size,
and for a tree of 3 files of 1000 bytes of which exactly two are
byte-identical, the reported estimate equals 1000. -/
theorem reclaimable_bytes_formula :
    (∀ (fs : List FSFile) (alg : String) (ex : Option (List String))
        (out : List (String × List String)),
      PathsNodup fs → find_duplicate_files fs alg ex = .ok out →
        space_savings fs out = .ok (reclaimableSpec fs out)) ∧
      find_duplicate_files fs1000 "md5" none = .ok dups1000 ∧
      space_savings fs1000 dups1000 = .ok 1000 :=
  ⟨fun _ _ _ _ hnd hout => space_savings_eq_spec hnd hout,
    find_fs1000, savings_fs1000⟩

/-- C6 applied to the 1000-byte tree. -/
theorem reclaimable_bytes_formula_witness :
    PathsNodup fs1000 ∧
      space_savings fs1000 dups1000 = .ok (reclaimableSpec fs1000 dups1000) :=
  ⟨by unfold PathsNodup; decide,
    reclaimable_bytes_formula.1 fs1000 "md5" none dups1000
      (by unfold PathsNodup; decide) reclaimable_bytes_formula.2.1⟩

/-! ## C4 -/

/-- C4: when hashing an individual file fails with an I/O error, that file
is excluded from the results and reported, while every remaining file is
still processed.  For a directory holding one unreadable file and two
readable byte-identical files (all size-equal, so the unreadable one does
reach the hashing pass), the scan completes and returns exactly one
duplicate group containing the two readable files, and the unreadable path
is exactly what the hashing pass reports to the error channel. -/
theorem partial_io_failure_isolated {pu pa pb : String} {c : List Nat} {alg : String}
    (halg : alg = "md5" ∨ alg = "sha1" ∨ alg = "sha256")
    (hne1 : pu ≠ pa) (hne2 : pu ≠ pb) (hne3 : pa ≠ pb) :
    find_duplicate_files
        [⟨pu, some c.length, none⟩, ⟨pa, some c.length, some c⟩,
         ⟨pb, some c.length, some c⟩] alg none =
      .ok [(digestBytes alg c, [pa, pb])] ∧
      hash_errors
        [⟨pu, some c.length, none⟩, ⟨pa, some c.length, some c⟩,
         ⟨pb, some c.length, some c⟩] alg none = [pu] := by
  set fs4 : List FSFile :=
    [⟨pu, some c.length, none⟩, ⟨pa, some c.length, some c⟩,
     ⟨pb, some c.length, some c⟩] with hfs4
  have hmk : mkHasher alg = some ⟨alg, []⟩ := mkHasher_supported halg
  have hnd : PathsNodup fs4 := by
    unfold PathsNodup
    simp [hfs4, hne1, hne2, hne3]
  have hru : readFile fs4 pu = none :=
    readFile_of_mem hnd
      (show (⟨pu, some c.length, none⟩ : FSFile) ∈ fs4 from List.mem_cons_self _ _)
  have hra : readFile fs4 pa = some c :=
    readFile_of_mem hnd
      (show (⟨pa, some c.length, some c⟩ : FSFile) ∈ fs4 from
        List.mem_cons_of_mem _ (List.mem_cons_self _ _))
  have hrb : readFile fs4 pb = some c :=
    readFile_of_mem hnd
      (show (⟨pb, some c.length, some c⟩ : FSFile) ∈ fs4 from
        List.mem_cons_of_mem _ (List.mem_cons_of_mem _ (List.mem_cons_self _ _)))
  have hcu : calculate_file_hash fs4 pu alg 65536 = .error .ioError :=
    calculate_file_hash_io_iff.mpr ⟨⟨_, hmk⟩, hru⟩
  have hca : calculate_file_hash fs4 pa alg 65536 = .ok (digestBytes alg c) :=
    (calculate_file_hash_ok_iff (by decide)).mpr ⟨hmk, c, hra, rfl⟩
  have hcb : calculate_file_hash fs4 pb alg 65536 = .ok (digestBytes alg c) :=
    (calculate_file_hash_ok_iff (by decide)).mpr ⟨hmk, c, hrb, rfl⟩
  have hstat : statPairs fs4 none = [(c.length, pu), (c.length, pa), (c.length, pb)] := rfl
  have hsz : size_to_files fs4 none = [(c.length, [pu, pa, pb])] := by
    rw [size_to_files_eq_buildFrom, hstat]
    simp [buildFrom, insertMulti]
  have hpot : potential_duplicates fs4 none = [(c.length, [pu, pa, pb])] := by
    unfold potential_duplicates
    rw [hsz]
    simp
  have hcand : candidate_paths fs4 none = [pu, pa, pb] := by
    unfold candidate_paths
    rw [hpot]
    simp
  have hpairs : hashPairs fs4 alg none =
      [(digestBytes alg c, pa), (digestBytes alg c, pb)] := by
    unfold hashPairs
    rw [hcand]
    rw [List.filterMap_cons_none (by unfold pairFor; rw [hcu])]
    rw [List.filterMap_cons_some
      ((@pairFor_eq_some fs4 alg pa (digestBytes alg c, pa)).mpr ⟨hca, rfl⟩)]
    rw [List.filterMap_cons_some
      ((@pairFor_eq_some fs4 alg pb (digestBytes alg c, pb)).mpr ⟨hcb, rfl⟩)]
    rfl
  constructor
  · unfold find_duplicate_files
    rw [if_neg (by rw [hpot]; simp)]
    rw [hash_to_files_ok hmk, hpairs]
    have hbuild : buildFrom [] [(digestBytes alg c, pa), (digestBytes alg c, pb)] =
        [(digestBytes alg c, [pa, pb])] := by
      simp [buildFrom, insertMulti]
    rw [hbuild]
    rfl
  · unfold hash_errors
    rw [hcand]
    simp [List.filter, hcu, hca, hcb]

/-- C4 applied concretely. -/
theorem partial_io_failure_isolated_witness :
    find_duplicate_files
        [⟨"u.jpg", some 3, none⟩, ⟨"a.jpg", some 3, some [1, 2, 3]⟩,
         ⟨"b.jpg", some 3, some [1, 2, 3]⟩] "md5" none =
      .ok [(digestBytes "md5" [1, 2, 3], ["a.jpg", "b.jpg"])] ∧
      hash_errors
        [⟨"u.jpg", some 3, none⟩, ⟨"a.jpg", some 3, some [1, 2, 3]⟩,
         ⟨"b.jpg", some 3, some [1, 2, 3]⟩] "md5" none = ["u.jpg"] :=
  @partial_io_failure_isolated "u.jpg" "a.jpg" "b.jpg" [1, 2, 3] "md5"
    (Or.inl rfl) (by decide) (by decide) (by decide)
